import Mathlib

/-!
Verification development for the transform logic of the T-Lex fraud
monitoring dashboard (src/App.py).

The dashboard code is straight-line data transformation.  We shallowly
embed the relevant pieces:

* `parse_reason_fraud` (App.py lines 212-240): regex attribute extraction
  from the reason text.  Each of the seven Python regexes starts with a
  literal key ending in a colon, followed by a simple character-class
  capture, so each one is embedded as a leftmost scan (`searchAux`) that
  tries an anchored match (`tryOf`) at every position, exactly mirroring
  `re.search` semantics for these patterns (at a given start position the
  greedy classes are forced, because no backtracking alternative can
  succeed: a whitespace character is never a digit, a digit is never the
  required trailing character, and so on).
* `extract_branch_id` (lines 242-246): the regex `\((B\d+)\)` embedded the
  same way.
* the severity derivation (lines 288-291), the severity filter and the
  left merge against the branch dimension table (lines 293-307), and the
  empty-result guards (lines 279-280 and 329-331).

Modelling conventions: pandas missing values (NaN) become `Option`;
Python `float` values arising from `float(capture)` on an `[\d.]+`
capture are idealized as exact decimal values in canonical form
(`DecVal`); the Python `ValueError` that `float` raises on a capture such
as ".." is modelled with `Except Unit`; character classes are modelled at
ASCII granularity (all string literals appearing in the program and in
the theorems below are ASCII).  The `.strip()` applied to captures in the
source is the identity on every possible capture (no capture class
contains whitespace) and is therefore not modelled separately.
-/

namespace Fraud

/-- Strings are modelled as lists of characters, as in the source they are
processed character by character by the regex engine. -/
abbrev Str := List Char

/-- Python regex class `\s` (ASCII part). -/
def pyIsSpace (c : Char) : Bool :=
  c = ' ' || c = '\t' || c = '\n' || c = '\r' || c = '\x0b' || c = '\x0c'

/-- Python regex class `\w` (ASCII part): letters, digits, underscore. -/
def isWordChar (c : Char) : Bool :=
  c.isAlpha || c.isDigit || c = '_'

/-- Python regex class `[\d.]`: digits or a dot. -/
def isAmountChar (c : Char) : Bool :=
  c.isDigit || c = '.'

/-- Value of a list of decimal digit characters, as Python `int` computes it. -/
def natOfDigits (l : Str) : Nat :=
  l.foldl (fun a c => a * 10 + (c.toNat - 48)) 0

/-- If `pre` is a leading segment of `l`, return the remainder, else `none`.
This is the anchored match of a literal inside a regex. -/
def dropStart : Str → Str → Option Str
  | [], l => some l
  | _ :: _, [] => none
  | p :: ps, c :: cs => if p = c then dropStart ps cs else none

/-- Leftmost search: try the anchored matcher at every start position from
the left, as `re.search` does. -/
def searchAux (tryAt : Str → Option Str) : Str → Option Str
  | [] => tryAt []
  | c :: rest =>
    match tryAt (c :: rest) with
    | some v => some v
    | none => searchAux tryAt rest

/-- Anchored match of a pattern that starts with a literal key: consume the
key, then run the rest of the pattern. -/
def tryOf (key : Str) (post : Str → Option Str) (l : Str) : Option Str :=
  match dropStart key l with
  | none => none
  | some r => post r

/-- Rest of pattern `\s*(cls+)`: skip whitespace, capture a maximal
nonempty run of class characters. -/
def postClass (cls : Char → Bool) (l : Str) : Option Str :=
  let r := l.dropWhile pyIsSpace
  let ds := r.takeWhile cls
  if ds.isEmpty then none else some ds

/-- Rest of pattern `\s*(\d+)a` for a required trailing character `a`. -/
def postDigitsThen (a : Char) (l : Str) : Option Str :=
  let r := l.dropWhile pyIsSpace
  let ds := r.takeWhile Char.isDigit
  match r.dropWhile Char.isDigit with
  | c :: _ => if ds.isEmpty then none else if c = a then some ds else none
  | [] => none

/-- Rest of pattern `\s*(TX\d+)`: the capture includes the inner literal. -/
def postTx (l : Str) : Option Str :=
  let r := l.dropWhile pyIsSpace
  match dropStart ['T', 'X'] r with
  | none => none
  | some r2 =>
    let ds := r2.takeWhile Char.isDigit
    if ds.isEmpty then none else some ('T' :: 'X' :: ds)

/-- Capture of `re.search` for the pattern `RiskScore:\s*(\d+)`. -/
def searchRiskScore (l : Str) : Option Str :=
  searchAux (tryOf "RiskScore:".data (postClass Char.isDigit)) l

/-- Capture of `re.search` for the pattern `EBITDA:\s*(\d+)%`. -/
def searchEbitda (l : Str) : Option Str :=
  searchAux (tryOf "EBITDA:".data (postDigitsThen '%')) l

/-- Capture of `re.search` for the pattern `Server:\s*(\w+)`. -/
def searchServer (l : Str) : Option Str :=
  searchAux (tryOf "Server:".data (postClass isWordChar)) l

/-- Capture of `re.search` for the pattern `TX:\s*(TX\d+)`. -/
def searchTx (l : Str) : Option Str :=
  searchAux (tryOf "TX:".data postTx) l

/-- Capture of `re.search` for the pattern `CustomerKey:\s*(\d+)`. -/
def searchCustomerKey (l : Str) : Option Str :=
  searchAux (tryOf "CustomerKey:".data (postClass Char.isDigit)) l

/-- Capture of `re.search` for the pattern `Wait:\s*(\d+)m`. -/
def searchWait (l : Str) : Option Str :=
  searchAux (tryOf "Wait:".data (postDigitsThen 'm')) l

/-- Capture of `re.search` for the pattern `Amount:\s*([\d.]+)`. -/
def searchAmount (l : Str) : Option Str :=
  searchAux (tryOf "Amount:".data (postClass isAmountChar)) l

/-- Anchored match of `\((B\d+)\)`: an opening parenthesis, the literal B,
a maximal nonempty digit run, and a closing parenthesis right after it
(shorter digit runs cannot back up into a match since the next character
would still be a digit). -/
def tryBranch (l : Str) : Option Str :=
  match l with
  | c1 :: c2 :: r =>
    if c1 = '(' ∧ c2 = 'B' then
      match r.dropWhile Char.isDigit with
      | c3 :: _ =>
        if c3 = ')' ∧ ¬(r.takeWhile Char.isDigit).isEmpty = true then
          some ('B' :: r.takeWhile Char.isDigit)
        else none
      | [] => none
    else none
  | _ => none

/-- `extract_branch_id` (App.py lines 242-246): `None` for a missing value,
otherwise the first `(B\d+)` capture, or `None` when there is none. -/
def extract_branch_id (branch_text : Option String) : Option String :=
  match branch_text with
  | none => none
  | some s => (searchAux tryBranch s.data).map String.mk

/-- Exact decimal value in canonical form: `mant / 10 ^ exp` with the
fraction part carrying no trailing zeros, so two captures denote the same
real number iff they yield the same `DecVal`.  This idealizes the Python
`float` produced by `float(capture)`. -/
structure DecVal where
  mant : Nat
  exp : Nat
deriving DecidableEq, Repr

/-- Remove trailing zero digits of a fraction part. -/
def stripTrailingZeros (l : Str) : Str :=
  (l.reverse.dropWhile (fun c => c = '0')).reverse

/-- Python `float` applied to a string drawn from the class `[\d.]+`:
defined exactly when there is at most one dot and at least one digit;
raises `ValueError` (here: `none`) otherwise. -/
def floatOfChars (l : Str) : Option DecVal :=
  if 2 ≤ l.count '.' then none
  else
    let ip := l.takeWhile (fun c => c ≠ '.')
    let fp := (l.dropWhile (fun c => c ≠ '.')).drop 1
    if ip.isEmpty && fp.isEmpty then none
    else
      let f := stripTrailingZeros fp
      some ⟨natOfDigits (ip ++ f), f.length⟩

/-- A typed attribute value, as stored in the Python dict built by
`parse_reason_fraud`: `int` for the integer keys, `float` (idealized as
`DecVal`) for `amount`, `str` for the rest. -/
inductive Value where
  | vInt : Nat → Value
  | vStr : String → Value
  | vNum : DecVal → Value
deriving DecidableEq, Repr

/-- The dict entries contributed by one pattern: one typed entry when the
pattern matched, nothing otherwise. -/
def entryOf (name : String) (g : Str → Value) (o : Option Str) :
    List (String × Value) :=
  match o with
  | some ds => [(name, g ds)]
  | none => []

/-- Body of `parse_reason_fraud` after the NaN guard, on the character
list of the reason string.  Entries are appended in the fixed iteration
order of the `patterns` dict; the `amount` conversion is the only one
that can fail (Python `ValueError`, modelled as `Except.error ()`) since
the other conversions act on pure digit captures. -/
def parse_core (l : Str) : Except Unit (List (String × Value)) :=
  let m1 := entryOf "risk_score" (fun ds => Value.vInt (natOfDigits ds))
    (searchRiskScore l)
  let m2 := m1 ++ entryOf "ebitda" (fun ds => Value.vInt (natOfDigits ds))
    (searchEbitda l)
  let m3 := m2 ++ entryOf "server" (fun w => Value.vStr (String.mk w))
    (searchServer l)
  let m4 := m3 ++ entryOf "tx_id" (fun w => Value.vStr (String.mk w))
    (searchTx l)
  let m5 := m4 ++ entryOf "customer_key" (fun ds => Value.vInt (natOfDigits ds))
    (searchCustomerKey l)
  let m6 := m5 ++ entryOf "wait_time" (fun ds => Value.vInt (natOfDigits ds))
    (searchWait l)
  match searchAmount l with
  | none => .ok m6
  | some cap =>
    match floatOfChars cap with
    | some d => .ok (m6 ++ [("amount", Value.vNum d)])
    | none => .error ()

/-- `parse_reason_fraud` (App.py lines 212-240).  A missing reason (NaN)
yields the empty dict; otherwise the seven patterns are matched
independently on the string. -/
def parse_reason_fraud (reason : Option String) :
    Except Unit (List (String × Value)) :=
  match reason with
  | none => .ok []
  | some s => parse_core s.data

/-- Lookup in the ordered dict produced by `parse_core`. -/
def lookupVal (k : String) : List (String × Value) → Option Value
  | [] => none
  | (k2, v) :: rest => if k2 = k then some v else lookupVal k rest

/-- The parsed risk score of a record, if any. -/
def riskNatOf (m : List (String × Value)) : Option Nat :=
  match lookupVal "risk_score" m with
  | some (Value.vInt n) => some n
  | _ => none

/-- Severity derivation (App.py lines 288-291), per record: the column is
initialized to LOW, rows with risk score at least 50 are set to HIGH, and
rows with risk score in [30, 50) are then set to MEDIUM.  A record with
no parsed risk score keeps LOW: either the risk_score column is absent
(no record parsed one) and the assignments never run, or the record holds
NaN there and both comparisons are false. -/
def severityOfRisk (rs : Option Nat) : String :=
  match rs with
  | none => "LOW"
  | some r =>
    let s1 := "LOW"
    let s2 := if 50 ≤ r then "HIGH" else s1
    if 30 ≤ r ∧ r < 50 then "MEDIUM" else s2

/-- Severity of a reason string as the dashboard derives it, `none` when
parsing raises and the load aborts. -/
def severityOfReason (r : String) : Option String :=
  match parse_reason_fraud (some r) with
  | .error _ => none
  | .ok m => some (severityOfRisk (riskNatOf m))

/-- Branch dimension row (table `tlekdw_operation.dim_branch`, App.py
lines 300-304).  The coordinate values play no role in the join, so their
numeric type is idealized as `Int`. -/
structure BranchRow where
  branch_id : String
  branch_name : String
  province : String
  latitude : Int
  longitude : Int
deriving DecidableEq, Repr

/-- The enrichment columns added by the merge; all absent (NaN) when the
row found no match. -/
structure Enrich where
  branch_name : Option String
  province : Option String
  latitude : Option Int
  longitude : Option Int
deriving DecidableEq, Repr

/-- Enrichment of an unmatched row. -/
def emptyEnrich : Enrich := ⟨none, none, none, none⟩

/-- The pandas left-merge contribution of one left row: one output row per
matching right row, or a single row with absent fields when there is no
match; a missing key (NaN) never matches. -/
def rowMerge (tbl : List BranchRow) (key : Option String) : List Enrich :=
  match key with
  | none => [emptyEnrich]
  | some b =>
    match tbl.filter (fun br => br.branch_id == b) with
    | [] => [emptyEnrich]
    | ms => ms.map (fun br =>
        ⟨some br.branch_name, some br.province, some br.latitude, some br.longitude⟩)

/-- The merge of App.py line 307 (`df.merge` on branch_id, how left):
left rows in order, each paired with its enrichment rows. -/
def leftMergeBranch {α : Type} (key : α → Option String) (rows : List α)
    (tbl : List BranchRow) : List (α × Enrich) :=
  rows.flatMap (fun r => (rowMerge tbl (key r)).map (fun e => (r, e)))

/-- One fetched row of `tlekdw_fraud.fraudcaseresult` (App.py lines
266-274).  The timestamp and amount types are idealized; only `branch`,
`reasonFraud` and `fraudtype` feed the modelled transforms. -/
structure RawRow where
  no : Nat
  fraudcasesCount : Nat
  branch : Option String
  zoneName : Option String
  reasonFraud : Option String
  fraudtype : String
  timeInvestigation : Nat
  fraudamount : Int
  fraudster : Option String
deriving DecidableEq, Repr

/-- Keys of the INTERNAL part of `FRAUD_TAXONOMY` (App.py lines 23-54). -/
def internalFraudTypes : List String :=
  ["employee_transaction_manipulation", "customer_staff_collusion",
   "inventory_fraud", "branch_risk_exposure", "branch_operational_risk"]

/-- A fraud-case row after the in-process transform steps of
`load_fraud_data`. -/
structure CaseRow where
  base : RawRow
  branch_id : Option String
  attrs : List (String × Value)
  severity : String
  fraudCategory : String
deriving DecidableEq, Repr

/-- The per-row transform: branch extraction (line 282), reason parsing
(lines 284-286), severity derivation (lines 288-291) and category
tagging (lines 314-316). -/
def mkCaseRow (r : RawRow) (m : List (String × Value)) : CaseRow :=
  { base := r
    branch_id := extract_branch_id r.branch
    attrs := m
    severity := severityOfRisk (riskNatOf m)
    fraudCategory :=
      if internalFraudTypes.contains r.fraudtype then "Internal" else "External" }

/-- Applying the transform to every fetched row; a parse error in any row
aborts the whole load, as the Python exception would. -/
def transformRows (rows : List RawRow) : Except Unit (List CaseRow) :=
  rows.mapM (fun r => (parse_reason_fraud r.reasonFraud).map (mkCaseRow r))

/-- Result of `load_fraud_data`: either the untouched empty frame
(returned at line 280 before any transform) or the transformed and
enriched table. -/
inductive LoadResult where
  | empty
  | table (rows : List (CaseRow × Enrich))
deriving DecidableEq, Repr

/-- `load_fraud_data` (App.py lines 249-318) after the fetch: the empty
guard (lines 279-280), the transforms, the severity filter (lines
293-294, only applied when the filter list is nonempty), and the branch
enrichment (lines 296-307, skipped entirely when no row carries a branch
id, in which case the enrichment columns are absent — modelled as
all-absent fields). -/
def load_fraud_data_model (fetched : List RawRow) (branchTbl : List BranchRow)
    (severityFilter : List String) : Except Unit LoadResult :=
  if fetched.isEmpty then .ok .empty
  else
    match transformRows fetched with
    | .error e => .error e
    | .ok cases0 =>
      let cases1 := if severityFilter.isEmpty then cases0
        else cases0.filter (fun c => severityFilter.contains c.severity)
      let bids := cases1.filterMap (fun c => c.branch_id)
      let enriched :=
        if bids.isEmpty then cases1.map (fun c => (c, emptyEnrich))
        else leftMergeBranch (fun c : CaseRow => c.branch_id) cases1
          (branchTbl.filter (fun b => bids.contains b.branch_id))
      .ok (.table enriched)

/-- Outcome of one dashboard pass at the top level (App.py lines
321-331): an exception propagates, an empty frame triggers
`st.warning` followed by `st.stop` (no rendering), and otherwise the
table is rendered. -/
inductive PassOutcome where
  | haltedWarning
  | rendered (t : List (CaseRow × Enrich))
  | failed
deriving DecidableEq, Repr

/-- The fetch-transform-render pass. -/
def dashboard_pass (fetched : List RawRow) (branchTbl : List BranchRow)
    (severityFilter : List String) : PassOutcome :=
  match load_fraud_data_model fetched branchTbl severityFilter with
  | .error _ => .failed
  | .ok .empty => .haltedWarning
  | .ok (.table t) => .rendered t

/-- The seven recognized attributes of the reason text. -/
inductive Attr where
  | riskScore | ebitda | server | txId | customerKey | waitTime | amount
deriving DecidableEq, Repr

/-- Key literal of each attribute without the trailing colon. -/
def attrKeyBody : Attr → Str
  | .riskScore => "RiskScore".data
  | .ebitda => "EBITDA".data
  | .server => "Server".data
  | .txId => "TX".data
  | .customerKey => "CustomerKey".data
  | .waitTime => "Wait".data
  | .amount => "Amount".data

/-- Key literal of each attribute as it appears in the regex. -/
def attrKey (a : Attr) : Str := attrKeyBody a ++ [':']

/-- A key-flagged fragment of a reason string, carrying its payload
characters.  This is the second, spec-side view of the reason text
(section 4.2 of the spec: independent key-flagged fragments), used to
state order-insensitivity against the source-level parser. -/
inductive Frag where
  | riskScore (ds : Str)
  | ebitda (ds : Str)
  | server (w : Str)
  | txId (ds : Str)
  | customerKey (ds : Str)
  | waitTime (ds : Str)
  | amount (ds : Str)
deriving DecidableEq, Repr

/-- The attribute a fragment carries. -/
def attrOf : Frag → Attr
  | .riskScore _ => .riskScore
  | .ebitda _ => .ebitda
  | .server _ => .server
  | .txId _ => .txId
  | .customerKey _ => .customerKey
  | .waitTime _ => .waitTime
  | .amount _ => .amount

/-- The characters of a fragment after its key and the separating space. -/
def payloadStr : Frag → Str
  | .riskScore ds => ds
  | .ebitda ds => ds ++ ['%']
  | .server w => w
  | .txId ds => 'T' :: 'X' :: ds
  | .customerKey ds => ds
  | .waitTime ds => ds ++ ['m']
  | .amount ds => ds

/-- The capture the corresponding regex produces on the fragment. -/
def capOf : Frag → Str
  | .riskScore ds => ds
  | .ebitda ds => ds
  | .server w => w
  | .txId ds => 'T' :: 'X' :: ds
  | .customerKey ds => ds
  | .waitTime ds => ds
  | .amount ds => ds

/-- Well-formedness of a fragment: a nonempty payload drawn from the
character class of its pattern, and for `amount` a capture on which the
Python float conversion succeeds. -/
def fragOK : Frag → Bool
  | .riskScore ds => !ds.isEmpty && ds.all Char.isDigit
  | .ebitda ds => !ds.isEmpty && ds.all Char.isDigit
  | .server w => !w.isEmpty && w.all isWordChar
  | .txId ds => !ds.isEmpty && ds.all Char.isDigit
  | .customerKey ds => !ds.isEmpty && ds.all Char.isDigit
  | .waitTime ds => !ds.isEmpty && ds.all Char.isDigit
  | .amount ds => !ds.isEmpty && ds.all isAmountChar && (floatOfChars ds).isSome

/-- Rendering of a fragment: key, one space, payload. -/
def fragStr (f : Frag) : Str := attrKey (attrOf f) ++ (' ' :: payloadStr f)

/-- Rendering of a fragment list, pipe-separated as in the upstream
reason strings. -/
def render : List Frag → Str
  | [] => []
  | [f] => fragStr f
  | f :: fs => fragStr f ++ (' ' :: '|' :: ' ' :: render fs)

/-- The separator that follows a fragment in the rendering: empty when it
is the last fragment. -/
def sepIf : List Frag → Str
  | [] => []
  | _ :: _ => [' ', '|', ' ']

/-- The unique fragment of a list carrying a given attribute, if any. -/
def findAttr (k : Attr) : List Frag → Option Frag
  | [] => none
  | f :: fs => if attrOf f = k then some f else findAttr k fs

/-- The text contains a parenthesized branch code: a literal B followed
by at least one digit, enclosed in parentheses. -/
def HasBCode (l : Str) : Prop :=
  ∃ A ds B, l = A ++ '(' :: 'B' :: (ds ++ ')' :: B) ∧ ds ≠ [] ∧
    ∀ c ∈ ds, c.isDigit = true

/-- The attribute names whose regex matched the reason, in the fixed
pattern order. -/
def matchedAttrs (reason : Option String) : List String :=
  match reason with
  | none => []
  | some s =>
    (if (searchRiskScore s.data).isSome then ["risk_score"] else []) ++
    (if (searchEbitda s.data).isSome then ["ebitda"] else []) ++
    (if (searchServer s.data).isSome then ["server"] else []) ++
    (if (searchTx s.data).isSome then ["tx_id"] else []) ++
    (if (searchCustomerKey s.data).isSome then ["customer_key"] else []) ++
    (if (searchWait s.data).isSome then ["wait_time"] else []) ++
    (if (searchAmount s.data).isSome then ["amount"] else [])

/-- The reason either matched no amount fragment or the matched capture is
a valid decimal numeral (so the float conversion succeeds). -/
def amountGood (reason : Option String) : Bool :=
  match reason with
  | none => true
  | some s =>
    match searchAmount s.data with
    | none => true
    | some cap => (floatOfChars cap).isSome

/-- The severity precedence asserted by the spec, section 4.3: there is a
nonempty set of terminal-decision keywords whose presence anywhere in the
reason text forces severity HIGH regardless of the risk score.  Stated
over the embedded program to be compared with what the code does. -/
def specC2Holds : Prop :=
  ∃ kws : List String, kws ≠ [] ∧
    ∀ r : String, (∃ k ∈ kws, k.data <:+: r.data) →
      severityOfReason r = some "HIGH"

/-! ### Generic helper lemmas about the scanning primitives -/

theorem dropStart_self (p l : Str) : dropStart p (p ++ l) = some l := by
  induction p with
  | nil => rfl
  | cons c p ih => simp [dropStart, ih]

theorem dropStart_eq_some : ∀ {p l r : Str}, dropStart p l = some r → l = p ++ r := by
  intro p
  induction p with
  | nil =>
    intro l r h
    simp only [dropStart, Option.some.injEq] at h
    simp [h]
  | cons c p ih =>
    intro l r h
    cases l with
    | nil => simp [dropStart] at h
    | cons d l =>
      simp only [dropStart] at h
      by_cases hcd : c = d
      · subst hcd
        simp only [if_pos rfl] at h
        simpa using ih h
      · simp [if_neg hcd] at h

theorem dropStart_nil_of_ne {p : Str} (h : p ≠ []) : dropStart p [] = none := by
  cases p with
  | nil => exact absurd rfl h
  | cons c p => rfl

theorem searchAux_of_tryAt {tryAt : Str → Option Str} {l v : Str}
    (h : tryAt l = some v) : searchAux tryAt l = some v := by
  cases l with
  | nil => simpa [searchAux] using h
  | cons c rest => simp [searchAux, h]

theorem searchAux_append {tryAt : Str → Option Str} {b : Str} :
    ∀ {a : Str}, (∀ t, t ≠ [] → t <:+ a → tryAt (t ++ b) = none) →
    searchAux tryAt (a ++ b) = searchAux tryAt b := by
  intro a
  induction a with
  | nil => intro _; rfl
  | cons c a2 ih =>
    intro h
    have h0 : tryAt ((c :: a2) ++ b) = none :=
      h (c :: a2) (List.cons_ne_nil c a2) List.suffix_rfl
    have h2 : ∀ t, t ≠ [] → t <:+ a2 → tryAt (t ++ b) = none := by
      intro t ht hs
      obtain ⟨s, hs⟩ := hs
      exact h t ht ⟨c :: s, by simp [← hs]⟩
    have hstep : searchAux tryAt ((c :: a2) ++ b) = searchAux tryAt (a2 ++ b) := by
      show (match tryAt ((c :: a2) ++ b) with
            | some v => some v
            | none => searchAux tryAt (a2 ++ b)) = searchAux tryAt (a2 ++ b)
      rw [h0]
    rw [hstep]
    exact ih h2

theorem searchAux_some {tryAt : Str → Option Str} :
    ∀ {l v : Str}, searchAux tryAt l = some v → ∃ t, t <:+ l ∧ tryAt t = some v := by
  intro l
  induction l with
  | nil => intro v h; exact ⟨[], List.suffix_rfl, h⟩
  | cons c rest ih =>
    intro v h
    simp only [searchAux] at h
    cases h0 : tryAt (c :: rest) with
    | some w =>
      rw [h0] at h
      exact ⟨c :: rest, List.suffix_rfl, by simpa [h0] using h⟩
    | none =>
      rw [h0] at h
      obtain ⟨t, hs, ht⟩ := ih h
      obtain ⟨s, hs⟩ := hs
      exact ⟨t, ⟨c :: s, by simp [← hs]⟩, ht⟩

theorem takeWhile_cons_true {p : Char → Bool} {c : Char} {l : Str}
    (h : p c = true) : (c :: l).takeWhile p = c :: l.takeWhile p := by
  simp [List.takeWhile, h]

theorem takeWhile_cons_false {p : Char → Bool} {c : Char} {l : Str}
    (h : p c = false) : (c :: l).takeWhile p = [] := by
  simp [List.takeWhile, h]

theorem dropWhile_cons_true {p : Char → Bool} {c : Char} {l : Str}
    (h : p c = true) : (c :: l).dropWhile p = l.dropWhile p := by
  simp [List.dropWhile, h]

theorem dropWhile_cons_false {p : Char → Bool} {c : Char} {l : Str}
    (h : p c = false) : (c :: l).dropWhile p = c :: l := by
  simp [List.dropWhile, h]

theorem takeWhile_of_all {p : Char → Bool} :
    ∀ {l : Str}, (∀ c ∈ l, p c = true) → l.takeWhile p = l := by
  intro l
  induction l with
  | nil => intro _; rfl
  | cons c l ih =>
    intro h
    rw [takeWhile_cons_true (h c (by simp)), ih (fun x hx => h x (by simp [hx]))]

theorem takeWhile_append_stop {p : Char → Bool} {c : Char} {b : Str}
    (hc : p c = false) :
    ∀ {a : Str}, (∀ x ∈ a, p x = true) → (a ++ c :: b).takeWhile p = a := by
  intro a
  induction a with
  | nil => intro _; simpa using @takeWhile_cons_false p c b hc
  | cons d a ih =>
    intro h
    have hd : p d = true := h d (by simp)
    simp only [List.cons_append, takeWhile_cons_true hd]
    rw [ih (fun x hx => h x (by simp [hx]))]

theorem dropWhile_append_stop {p : Char → Bool} {c : Char} {b : Str}
    (hc : p c = false) :
    ∀ {a : Str}, (∀ x ∈ a, p x = true) → (a ++ c :: b).dropWhile p = c :: b := by
  intro a
  induction a with
  | nil => intro _; simpa using @dropWhile_cons_false p c b hc
  | cons d a ih =>
    intro h
    have hd : p d = true := h d (by simp)
    simp only [List.cons_append, dropWhile_cons_true hd]
    exact ih (fun x hx => h x (by simp [hx]))

theorem pyIsSpace_cases {c : Char} (h : pyIsSpace c = true) :
    c = ' ' ∨ c = '\t' ∨ c = '\n' ∨ c = '\r' ∨ c = '\x0b' ∨ c = '\x0c' := by
  simp [pyIsSpace] at h
  tauto

theorem digit_not_space {c : Char} (hd : c.isDigit = true) : pyIsSpace c = false := by
  cases hsp : pyIsSpace c
  · rfl
  · rcases pyIsSpace_cases hsp with rfl | rfl | rfl | rfl | rfl | rfl <;>
      exact absurd hd (by decide)

theorem wordChar_not_space {c : Char} (hd : isWordChar c = true) :
    pyIsSpace c = false := by
  cases hsp : pyIsSpace c
  · rfl
  · rcases pyIsSpace_cases hsp with rfl | rfl | rfl | rfl | rfl | rfl <;>
      exact absurd hd (by decide)

theorem amountChar_not_space {c : Char} (hd : isAmountChar c = true) :
    pyIsSpace c = false := by
  cases hsp : pyIsSpace c
  · rfl
  · rcases pyIsSpace_cases hsp with rfl | rfl | rfl | rfl | rfl | rfl <;>
      exact absurd hd (by decide)

theorem colon_split_unique :
    ∀ {x z : Str} {y w : Str}, ':' ∉ x → ':' ∉ z →
    x ++ ':' :: y = z ++ ':' :: w → x = z ∧ y = w := by
  intro x
  induction x with
  | nil =>
    intro z y w _ hz h
    cases z with
    | nil => simpa using h
    | cons d z =>
      simp only [List.nil_append, List.cons_append, List.cons.injEq] at h
      exact absurd (by simp [← h.1]) hz
  | cons c x ih =>
    intro z y w hx hz h
    cases z with
    | nil =>
      simp only [List.cons_append, List.nil_append, List.cons.injEq] at h
      exact absurd (by simp [h.1]) hx
    | cons d z =>
      simp only [List.cons_append, List.cons.injEq] at h
      have hx2 : ':' ∉ x := fun hm => hx (by simp [hm])
      have hz2 : ':' ∉ z := fun hm => hz (by simp [hm])
      obtain ⟨h1, h2⟩ := ih hx2 hz2 h.2
      exact ⟨by simp [h.1, h1], h2⟩

theorem append_singleton_eq {t w x : Str} {e : Char} (hw : w ≠ [])
    (h : t ++ w = x ++ [e]) : ∃ w2, w = w2 ++ [e] ∧ t ++ w2 = x := by
  rcases List.eq_nil_or_concat w with rfl | ⟨w2, a, rfl⟩
  · exact absurd rfl hw
  · rw [List.concat_eq_append, ← List.append_assoc] at h
    have hlen : (t ++ w2).length = x.length := by
      have h9 := congrArg List.length h
      simp only [List.length_append, List.length_cons] at h9 ⊢
      omega
    obtain ⟨h1, h2⟩ := List.append_inj h hlen
    have ha : a = e := by simpa using h2
    exact ⟨w2, by rw [List.concat_eq_append, ha], h1⟩

/-! ### Facts about key literals and fragments -/

theorem attrKeyBody_noColon (a : Attr) : ':' ∉ attrKeyBody a := by
  cases a <;> decide

theorem attrKey_ne_nil (a : Attr) : attrKey a ≠ [] := by
  cases a <;> decide

theorem attrKey_suffix_inj {a b : Attr} (h : attrKey a <:+ attrKey b) : a = b := by
  revert h
  cases a <;> cases b <;> decide

theorem payload_noColon {f : Frag} (h : fragOK f = true) : ':' ∉ payloadStr f := by
  cases f with
  | riskScore ds =>
    simp only [fragOK, Bool.and_eq_true, List.all_eq_true] at h
    simp only [payloadStr]
    intro hmem
    exact absurd (h.2 ':' hmem) (by decide)
  | ebitda ds =>
    simp only [fragOK, Bool.and_eq_true, List.all_eq_true] at h
    simp only [payloadStr]
    intro hmem
    rcases List.mem_append.mp hmem with hm | hm
    · exact absurd (h.2 ':' hm) (by decide)
    · exact absurd (List.mem_singleton.mp hm) (by decide)
  | server w =>
    simp only [fragOK, Bool.and_eq_true, List.all_eq_true] at h
    simp only [payloadStr]
    intro hmem
    exact absurd (h.2 ':' hmem) (by decide)
  | txId ds =>
    simp only [fragOK, Bool.and_eq_true, List.all_eq_true] at h
    simp only [payloadStr]
    intro hmem
    rcases List.mem_cons.mp hmem with hm | hm
    · exact absurd hm (by decide)
    · rcases List.mem_cons.mp hm with hm2 | hm2
      · exact absurd hm2 (by decide)
      · exact absurd (h.2 ':' hm2) (by decide)
  | customerKey ds =>
    simp only [fragOK, Bool.and_eq_true, List.all_eq_true] at h
    simp only [payloadStr]
    intro hmem
    exact absurd (h.2 ':' hmem) (by decide)
  | waitTime ds =>
    simp only [fragOK, Bool.and_eq_true, List.all_eq_true] at h
    simp only [payloadStr]
    intro hmem
    rcases List.mem_append.mp hmem with hm | hm
    · exact absurd (h.2 ':' hm) (by decide)
    · exact absurd (List.mem_singleton.mp hm) (by decide)
  | amount ds =>
    simp only [fragOK, Bool.and_eq_true, List.all_eq_true] at h
    simp only [payloadStr]
    intro hmem
    exact absurd (h.1.2 ':' hmem) (by decide)

theorem sepIf_noColon (L : List Frag) : ':' ∉ sepIf L := by
  cases L with
  | nil => simp [sepIf]
  | cons g L3 =>
    show ':' ∉ [' ', '|', ' ']
    decide

theorem fragStr_eq (f : Frag) :
    fragStr f = attrKeyBody (attrOf f) ++ ':' :: (' ' :: payloadStr f) := by
  simp [fragStr, attrKey, List.append_assoc]

theorem render_cons (f : Frag) (L2 : List Frag) :
    render (f :: L2) = (fragStr f ++ sepIf L2) ++ render L2 := by
  cases L2 with
  | nil => simp [render, sepIf]
  | cons g L3 => simp [render, sepIf]

/-- The key literal of attribute `k` can only occur inside a rendered
fragment (followed by colon-free text) when the fragment carries `k`
itself: the colon at the end of the key pins the occurrence to - the key
position of the fragment, and no key is a proper suffix of another. -/
theorem key_occ_in_frag {f : Frag} {k : Attr} {sp A B : Str}
    (hok : fragOK f = true) (hsp : ':' ∉ sp)
    (h : fragStr f ++ sp = A ++ (attrKey k ++ B)) : attrOf f = k := by
  have hL : fragStr f ++ sp =
      attrKeyBody (attrOf f) ++ ':' :: ((' ' :: payloadStr f) ++ sp) := by
    rw [fragStr_eq]
    simp [List.append_assoc]
  have hR : A ++ (attrKey k ++ B) = (A ++ attrKeyBody k) ++ ':' :: B := by
    simp [attrKey, List.append_assoc]
  rw [hL, hR] at h
  have hTnc : ':' ∉ (' ' :: payloadStr f) ++ sp := by
    intro hm
    rcases List.mem_append.mp hm with hm | hm
    · rcases List.mem_cons.mp hm with hm2 | hm2
      · exact absurd hm2 (by decide)
      · exact payload_noColon hok hm2
    · exact hsp hm
  have h1 : List.count ':' (attrKeyBody (attrOf f)) = 0 :=
    List.count_eq_zero.mpr (attrKeyBody_noColon _)
  have h2a : List.count ':' (' ' :: payloadStr f) = 0 :=
    List.count_eq_zero.mpr (fun hm => hTnc (List.mem_append.mpr (Or.inl hm)))
  have h2b : List.count ':' sp = 0 := List.count_eq_zero.mpr hsp
  have h3 : List.count ':' (attrKeyBody k) = 0 :=
    List.count_eq_zero.mpr (attrKeyBody_noColon _)
  have hcnt := congrArg (List.count ':') h
  simp only [List.count_append, List.count_cons_self] at hcnt
  have hA : ':' ∉ A := List.count_eq_zero.mp (by omega)
  have hB : ':' ∉ B := List.count_eq_zero.mp (by omega)
  have hABnc : ':' ∉ A ++ attrKeyBody k := by
    intro hm
    rcases List.mem_append.mp hm with hm | hm
    · exact hA hm
    · exact attrKeyBody_noColon k hm
  obtain ⟨hsplit, _⟩ :=
    colon_split_unique (attrKeyBody_noColon (attrOf f)) hABnc h
  have hkey : A ++ attrKey k = attrKey (attrOf f) := by
    rw [attrKey, attrKey, hsplit, List.append_assoc]
  exact (attrKey_suffix_inj ⟨A, hkey⟩).symm

/-- Master lemma: on a rendered fragment list the leftmost-search for the
pattern of attribute `k` captures exactly what the fragment carrying `k`
provides, and fails when no fragment carries `k`. -/
theorem search_render {k : Attr} {post : Str → Option Str}
    (hpost : ∀ f, attrOf f = k → fragOK f = true → ∀ tail : Str,
      (tail = [] ∨ ∃ r, tail = ' ' :: r) →
      post (' ' :: (payloadStr f ++ tail)) = some (capOf f)) :
    ∀ L : List Frag, (∀ f ∈ L, fragOK f = true) →
    searchAux (tryOf (attrKey k) post) (render L) = (findAttr k L).map capOf := by
  intro L
  induction L with
  | nil =>
    intro _
    show tryOf (attrKey k) post [] = none
    simp [tryOf, dropStart_nil_of_ne (attrKey_ne_nil k)]
  | cons f L2 ih =>
    intro hok
    have hokf : fragOK f = true := hok f (by simp)
    have hok2 : ∀ g ∈ L2, fragOK g = true := fun g hg => hok g (by simp [hg])
    rw [render_cons]
    by_cases hatt : attrOf f = k
    · have htail : sepIf L2 ++ render L2 = [] ∨
          ∃ r, sepIf L2 ++ render L2 = ' ' :: r := by
        cases L2 with
        | nil => left; simp [sepIf, render]
        | cons g L3 => right; exact ⟨'|' :: ' ' :: render (g :: L3), by simp [sepIf]⟩
      have heq : (fragStr f ++ sepIf L2) ++ render L2 =
          attrKey k ++ (' ' :: (payloadStr f ++ (sepIf L2 ++ render L2))) := by
        simp [fragStr, hatt, List.append_assoc]
      have htry : tryOf (attrKey k) post
          (attrKey k ++ (' ' :: (payloadStr f ++ (sepIf L2 ++ render L2)))) =
          some (capOf f) := by
        simp only [tryOf, dropStart_self]
        exact hpost f hatt hokf _ htail
      rw [heq, searchAux_of_tryAt htry]
      simp [findAttr, hatt]
    · have hnone : ∀ t, t ≠ [] → t <:+ (fragStr f ++ sepIf L2) →
          tryOf (attrKey k) post (t ++ render L2) = none := by
        intro t ht hsuf
        cases htry : tryOf (attrKey k) post (t ++ render L2) with
        | none => rfl
        | some v =>
          exfalso
          have hdrop : ∃ r, dropStart (attrKey k) (t ++ render L2) = some r := by
            revert htry
            simp only [tryOf]
            cases hd : dropStart (attrKey k) (t ++ render L2) with
            | none => intro hc; exact absurd hc (by simp)
            | some r => intro _; exact ⟨r, rfl⟩
          obtain ⟨r, hr⟩ := hdrop
          have heq2 : t ++ render L2 = attrKey k ++ r := dropStart_eq_some hr
          obtain ⟨s, hsuf⟩ := hsuf
          rcases List.append_eq_append_iff.mp heq2 with ⟨w, hw1, hw2⟩ | ⟨w, hw1, hw2⟩
          · by_cases hwnil : w = []
            · subst hwnil
              rw [List.append_nil] at hw1
              apply hatt
              have hocc : fragStr f ++ sepIf L2 = s ++ (attrKey k ++ []) := by
                rw [← hsuf, hw1]
                simp
              exact key_occ_in_frag hokf (sepIf_noColon L2) hocc
            · have hsing : t ++ w = attrKeyBody k ++ [':'] := by
                rw [← hw1]; rfl
              obtain ⟨w2, hwa, hwb⟩ := append_singleton_eq hwnil hsing
              have hw2nc : ':' ∉ w2 := by
                intro hm
                exact attrKeyBody_noColon k (by rw [← hwb]; simp [hm])
              have hrend : render L2 = w2 ++ ':' :: r := by
                rw [hw2, hwa]
                simp
              cases L2 with
              | nil => simp [render] at hrend
              | cons g L3 =>
                have hrg : render (g :: L3) = attrKeyBody (attrOf g) ++
                    ':' :: ((' ' :: payloadStr g) ++ (sepIf L3 ++ render L3)) := by
                  rw [render_cons, fragStr_eq]
                  simp [List.append_assoc]
                rw [hrg] at hrend
                obtain ⟨hbg, _⟩ :=
                  colon_split_unique hw2nc (attrKeyBody_noColon (attrOf g)) hrend.symm
                have hwkey : w = attrKey (attrOf g) := by
                  rw [hwa, attrKey, hbg]
                have hgk : attrOf g = k :=
                  attrKey_suffix_inj ⟨t, by rw [← hwkey, ← hw1]⟩
                rw [hgk] at hwkey
                rw [hwkey] at hw1
                have hlen := congrArg List.length hw1
                simp only [List.length_append] at hlen
                have : t = [] := List.length_eq_zero.mp (by omega)
                exact ht this
          · apply hatt
            have hocc : fragStr f ++ sepIf L2 = s ++ (attrKey k ++ w) := by
              rw [← hsuf, hw1]
            exact key_occ_in_frag hokf (sepIf_noColon L2) hocc
      rw [searchAux_append hnone, ih hok2]
      simp [findAttr, hatt]

theorem ne_nil_of_isEmpty_false {l : Str} (h : (!l.isEmpty) = true) : l ≠ [] := by
  cases l with
  | nil => simp at h
  | cons c l => simp

theorem postClass_payload {cls : Char → Bool} {p tail : Str}
    (hp : p ≠ []) (hall : ∀ c ∈ p, cls c = true)
    (hns : ∀ c, cls c = true → pyIsSpace c = false)
    (hsp : cls ' ' = false)
    (htail : tail = [] ∨ ∃ r, tail = ' ' :: r) :
    postClass cls (' ' :: (p ++ tail)) = some p := by
  have hdrop : (' ' :: (p ++ tail)).dropWhile pyIsSpace = p ++ tail := by
    rw [dropWhile_cons_true (by decide)]
    cases p with
    | nil => exact absurd rfl hp
    | cons c0 p2 =>
      have hc0 : pyIsSpace c0 = false := hns c0 (hall c0 (by simp))
      rw [List.cons_append, dropWhile_cons_false hc0]
  have htake : (p ++ tail).takeWhile cls = p := by
    rcases htail with rfl | ⟨r, rfl⟩
    · rw [List.append_nil]; exact takeWhile_of_all hall
    · exact takeWhile_append_stop hsp hall
  simp only [postClass, hdrop, htake]
  cases p with
  | nil => exact absurd rfl hp
  | cons c0 p2 => rfl

theorem postDigitsThen_payload {a : Char} {ds tail : Str}
    (hds : ds ≠ []) (hall : ∀ c ∈ ds, Char.isDigit c = true)
    (ha : Char.isDigit a = false) :
    postDigitsThen a (' ' :: ((ds ++ [a]) ++ tail)) = some ds := by
  have hshape : (ds ++ [a]) ++ tail = ds ++ a :: tail := by simp
  rw [hshape]
  have hdrop : (' ' :: (ds ++ a :: tail)).dropWhile pyIsSpace = ds ++ a :: tail := by
    rw [dropWhile_cons_true (by decide)]
    cases ds with
    | nil => exact absurd rfl hds
    | cons c0 p2 =>
      have hc0 : pyIsSpace c0 = false := digit_not_space (hall c0 (by simp))
      rw [List.cons_append, dropWhile_cons_false hc0]
  have htake : (ds ++ a :: tail).takeWhile Char.isDigit = ds :=
    takeWhile_append_stop ha hall
  have hdrop2 : (ds ++ a :: tail).dropWhile Char.isDigit = a :: tail :=
    dropWhile_append_stop ha hall
  simp only [postDigitsThen, hdrop, htake, hdrop2]
  cases ds with
  | nil => exact absurd rfl hds
  | cons c0 p2 => simp

theorem postTx_payload {ds tail : Str}
    (hds : ds ≠ []) (hall : ∀ c ∈ ds, Char.isDigit c = true)
    (htail : tail = [] ∨ ∃ r, tail = ' ' :: r) :
    postTx (' ' :: (('T' :: 'X' :: ds) ++ tail)) = some ('T' :: 'X' :: ds) := by
  have hdrop : (' ' :: (('T' :: 'X' :: ds) ++ tail)).dropWhile pyIsSpace =
      'T' :: 'X' :: (ds ++ tail) := by
    rw [dropWhile_cons_true (by decide)]
    show ('T' :: ('X' :: (ds ++ tail))).dropWhile pyIsSpace = _
    rw [dropWhile_cons_false (by decide)]
  have htake : (ds ++ tail).takeWhile Char.isDigit = ds := by
    rcases htail with rfl | ⟨r, rfl⟩
    · rw [List.append_nil]; exact takeWhile_of_all hall
    · exact takeWhile_append_stop (by decide) hall
  simp only [postTx, hdrop]
  rw [show dropStart ['T', 'X'] ('T' :: 'X' :: (ds ++ tail)) = some (ds ++ tail)
    from rfl]
  simp only [htake]
  cases ds with
  | nil => exact absurd rfl hds
  | cons c0 p2 => rfl

theorem searchRiskScore_render (L : List Frag) (hok : ∀ f ∈ L, fragOK f = true) :
    searchRiskScore (render L) = (findAttr .riskScore L).map capOf := by
  have hpost : ∀ f, attrOf f = Attr.riskScore → fragOK f = true → ∀ tail : Str,
      (tail = [] ∨ ∃ r, tail = ' ' :: r) →
      postClass Char.isDigit (' ' :: (payloadStr f ++ tail)) = some (capOf f) := by
    intro f hf hokf tail htail
    cases f <;> simp only [attrOf] at hf <;> try exact absurd hf (by decide)
    case riskScore ds =>
    simp only [fragOK, Bool.and_eq_true, List.all_eq_true] at hokf
    simp only [payloadStr, capOf]
    exact postClass_payload (ne_nil_of_isEmpty_false hokf.1) hokf.2
      (fun c hc => digit_not_space hc) (by decide) htail
  exact @search_render Attr.riskScore (postClass Char.isDigit) hpost L hok

theorem searchEbitda_render (L : List Frag) (hok : ∀ f ∈ L, fragOK f = true) :
    searchEbitda (render L) = (findAttr .ebitda L).map capOf := by
  have hpost : ∀ f, attrOf f = Attr.ebitda → fragOK f = true → ∀ tail : Str,
      (tail = [] ∨ ∃ r, tail = ' ' :: r) →
      postDigitsThen '%' (' ' :: (payloadStr f ++ tail)) = some (capOf f) := by
    intro f hf hokf tail htail
    cases f <;> simp only [attrOf] at hf <;> try exact absurd hf (by decide)
    case ebitda ds =>
    simp only [fragOK, Bool.and_eq_true, List.all_eq_true] at hokf
    simp only [payloadStr, capOf]
    exact postDigitsThen_payload (ne_nil_of_isEmpty_false hokf.1) hokf.2 (by decide)
  exact @search_render Attr.ebitda (postDigitsThen '%') hpost L hok

theorem searchServer_render (L : List Frag) (hok : ∀ f ∈ L, fragOK f = true) :
    searchServer (render L) = (findAttr .server L).map capOf := by
  have hpost : ∀ f, attrOf f = Attr.server → fragOK f = true → ∀ tail : Str,
      (tail = [] ∨ ∃ r, tail = ' ' :: r) →
      postClass isWordChar (' ' :: (payloadStr f ++ tail)) = some (capOf f) := by
    intro f hf hokf tail htail
    cases f <;> simp only [attrOf] at hf <;> try exact absurd hf (by decide)
    case server w =>
    simp only [fragOK, Bool.and_eq_true, List.all_eq_true] at hokf
    simp only [payloadStr, capOf]
    exact postClass_payload (ne_nil_of_isEmpty_false hokf.1) hokf.2
      (fun c hc => wordChar_not_space hc) (by decide) htail
  exact @search_render Attr.server (postClass isWordChar) hpost L hok

theorem searchTx_render (L : List Frag) (hok : ∀ f ∈ L, fragOK f = true) :
    searchTx (render L) = (findAttr .txId L).map capOf := by
  have hpost : ∀ f, attrOf f = Attr.txId → fragOK f = true → ∀ tail : Str,
      (tail = [] ∨ ∃ r, tail = ' ' :: r) →
      postTx (' ' :: (payloadStr f ++ tail)) = some (capOf f) := by
    intro f hf hokf tail htail
    cases f <;> simp only [attrOf] at hf <;> try exact absurd hf (by decide)
    case txId ds =>
    simp only [fragOK, Bool.and_eq_true, List.all_eq_true] at hokf
    simp only [payloadStr, capOf]
    exact postTx_payload (ne_nil_of_isEmpty_false hokf.1) hokf.2 htail
  exact @search_render Attr.txId (postTx) hpost L hok

theorem searchCustomerKey_render (L : List Frag) (hok : ∀ f ∈ L, fragOK f = true) :
    searchCustomerKey (render L) = (findAttr .customerKey L).map capOf := by
  have hpost : ∀ f, attrOf f = Attr.customerKey → fragOK f = true → ∀ tail : Str,
      (tail = [] ∨ ∃ r, tail = ' ' :: r) →
      postClass Char.isDigit (' ' :: (payloadStr f ++ tail)) = some (capOf f) := by
    intro f hf hokf tail htail
    cases f <;> simp only [attrOf] at hf <;> try exact absurd hf (by decide)
    case customerKey ds =>
    simp only [fragOK, Bool.and_eq_true, List.all_eq_true] at hokf
    simp only [payloadStr, capOf]
    exact postClass_payload (ne_nil_of_isEmpty_false hokf.1) hokf.2
      (fun c hc => digit_not_space hc) (by decide) htail
  exact @search_render Attr.customerKey (postClass Char.isDigit) hpost L hok

theorem searchWait_render (L : List Frag) (hok : ∀ f ∈ L, fragOK f = true) :
    searchWait (render L) = (findAttr .waitTime L).map capOf := by
  have hpost : ∀ f, attrOf f = Attr.waitTime → fragOK f = true → ∀ tail : Str,
      (tail = [] ∨ ∃ r, tail = ' ' :: r) →
      postDigitsThen 'm' (' ' :: (payloadStr f ++ tail)) = some (capOf f) := by
    intro f hf hokf tail htail
    cases f <;> simp only [attrOf] at hf <;> try exact absurd hf (by decide)
    case waitTime ds =>
    simp only [fragOK, Bool.and_eq_true, List.all_eq_true] at hokf
    simp only [payloadStr, capOf]
    exact postDigitsThen_payload (ne_nil_of_isEmpty_false hokf.1) hokf.2 (by decide)
  exact @search_render Attr.waitTime (postDigitsThen 'm') hpost L hok

theorem searchAmount_render (L : List Frag) (hok : ∀ f ∈ L, fragOK f = true) :
    searchAmount (render L) = (findAttr .amount L).map capOf := by
  have hpost : ∀ f, attrOf f = Attr.amount → fragOK f = true → ∀ tail : Str,
      (tail = [] ∨ ∃ r, tail = ' ' :: r) →
      postClass isAmountChar (' ' :: (payloadStr f ++ tail)) = some (capOf f) := by
    intro f hf hokf tail htail
    cases f <;> simp only [attrOf] at hf <;> try exact absurd hf (by decide)
    case amount ds =>
    simp only [fragOK, Bool.and_eq_true, List.all_eq_true] at hokf
    simp only [payloadStr, capOf]
    exact postClass_payload (ne_nil_of_isEmpty_false hokf.1.1) hokf.1.2
      (fun c hc => amountChar_not_space hc) (by decide) htail
  exact @search_render Attr.amount (postClass isAmountChar) hpost L hok

theorem findAttr_perm {L1 L2 : List Frag} (hp : L1.Perm L2)
    (hnd : (L1.map attrOf).Nodup) (k : Attr) : findAttr k L1 = findAttr k L2 := by
  induction hp with
  | nil => rfl
  | cons f hp2 ih =>
    simp only [findAttr]
    by_cases h : attrOf f = k
    · simp [h]
    · simp only [if_neg h]
      apply ih
      simp only [List.map_cons, List.nodup_cons] at hnd
      exact hnd.2
  | swap x y l =>
    simp only [findAttr]
    by_cases hx : attrOf x = k <;> by_cases hy : attrOf y = k
    · exfalso
      simp only [List.map_cons, List.nodup_cons, List.mem_cons] at hnd
      exact hnd.1 (Or.inl (by rw [hy, hx]))
    · simp [hx, hy]
    · simp [hx, hy]
    · simp [hx, hy]
  | trans h1 h2 ih1 ih2 =>
    rw [ih1 hnd, ih2 ((h1.map attrOf).nodup hnd)]

/-! ### Claim C7 -/

/-- C7: reason-attribute parsing is order-insensitive: for any two reason
strings that consist of the same well-formed key-flagged fragments (at
most one per recognized attribute) arranged in different orders,
`parse_reason_fraud` returns equal mappings; each pattern is matched
independently and missing fragments are tolerated (the lists may omit any
subset of attributes). -/
theorem C7_parse_order_insensitive (L1 L2 : List Frag)
    (hperm : L1.Perm L2) (hnd : (L1.map attrOf).Nodup)
    (hok : ∀ f ∈ L1, fragOK f = true) :
    parse_reason_fraud (some (String.mk (render L1))) =
      parse_reason_fraud (some (String.mk (render L2))) := by
  have hok2 : ∀ f ∈ L2, fragOK f = true := fun f hf => hok f (hperm.mem_iff.mpr hf)
  show parse_core (render L1) = parse_core (render L2)
  simp only [parse_core,
    searchRiskScore_render L1 hok, searchEbitda_render L1 hok,
    searchServer_render L1 hok, searchTx_render L1 hok,
    searchCustomerKey_render L1 hok, searchWait_render L1 hok,
    searchAmount_render L1 hok,
    searchRiskScore_render L2 hok2, searchEbitda_render L2 hok2,
    searchServer_render L2 hok2, searchTx_render L2 hok2,
    searchCustomerKey_render L2 hok2, searchWait_render L2 hok2,
    searchAmount_render L2 hok2]
  rw [findAttr_perm hperm hnd Attr.riskScore, findAttr_perm hperm hnd Attr.ebitda,
    findAttr_perm hperm hnd Attr.server, findAttr_perm hperm hnd Attr.txId,
    findAttr_perm hperm hnd Attr.customerKey, findAttr_perm hperm hnd Attr.waitTime,
    findAttr_perm hperm hnd Attr.amount]

/-- Witness for C7: a concrete two-fragment reason permuted both ways. -/
theorem C7_witness :
    parse_reason_fraud (some (String.mk (render
      [Frag.riskScore ['4', '2'], Frag.server ['a', 'b']]))) =
    parse_reason_fraud (some (String.mk (render
      [Frag.server ['a', 'b'], Frag.riskScore ['4', '2']]))) :=
  C7_parse_order_insensitive _ _ (by decide) (by decide) (by decide)

/-! ### Claims C4 and C10: the branch-code extractor -/

theorem mem_takeWhile {p : Char → Bool} :
    ∀ {l : Str} {c : Char}, c ∈ l.takeWhile p → p c = true := by
  intro l
  induction l with
  | nil => intro c h; simp [List.takeWhile] at h
  | cons d l ih =>
    intro c h
    cases hd : p d with
    | true =>
      rw [takeWhile_cons_true hd] at h
      rcases List.mem_cons.mp h with rfl | h2
      · exact hd
      · exact ih h2
    | false => rw [takeWhile_cons_false hd] at h; simp at h

theorem dropWhile_nil_all {p : Char → Bool} :
    ∀ {l : Str}, l.dropWhile p = [] → ∀ c ∈ l, p c = true := by
  intro l
  induction l with
  | nil => intro _ c h; simp at h
  | cons d l ih =>
    intro h c hc
    cases hd : p d with
    | true =>
      rw [dropWhile_cons_true hd] at h
      rcases List.mem_cons.mp hc with rfl | h2
      · exact hd
      · exact ih h c h2
    | false => rw [dropWhile_cons_false hd] at h; simp at h

theorem dropWhile_head_false {p : Char → Bool} :
    ∀ {l : Str} {c : Char} {b : Str}, l.dropWhile p = c :: b → p c = false := by
  intro l
  induction l with
  | nil => intro c b h; simp [List.dropWhile] at h
  | cons d l ih =>
    intro c b h
    cases hd : p d with
    | true => rw [dropWhile_cons_true hd] at h; exact ih h
    | false =>
      rw [dropWhile_cons_false hd] at h
      injection h with h1 h2
      rw [← h1]
      exact hd

theorem dropWhile_all_append {p : Char → Bool} :
    ∀ {a x : Str}, (∀ c ∈ a, p c = true) → (a ++ x).dropWhile p = x.dropWhile p := by
  intro a
  induction a with
  | nil => intro x _; rfl
  | cons d a ih =>
    intro x h
    have hd : p d = true := h d (by simp)
    rw [List.cons_append, dropWhile_cons_true hd]
    exact ih (fun c hc => h c (by simp [hc]))

/-- A successful anchored branch-code match exhibits the code structure. -/
theorem tryBranch_inv {t v : Str} (h : tryBranch t = some v) :
    ∃ ds b2, t = '(' :: 'B' :: (ds ++ ')' :: b2) ∧ ds ≠ [] ∧
      (∀ c ∈ ds, c.isDigit = true) ∧ v = 'B' :: ds := by
  match t with
  | [] => simp [tryBranch] at h
  | [c1] => simp [tryBranch] at h
  | c1 :: c2 :: r =>
    simp only [tryBranch] at h
    by_cases h12 : c1 = '(' ∧ c2 = 'B'
    · rw [if_pos h12] at h
      obtain ⟨rfl, rfl⟩ := h12
      cases hd : r.dropWhile Char.isDigit with
      | nil => rw [hd] at h; simp at h
      | cons c3 b2 =>
        rw [hd] at h
        dsimp only at h
        by_cases h3 : c3 = ')' ∧ ¬(r.takeWhile Char.isDigit).isEmpty = true
        · rw [if_pos h3] at h
          obtain ⟨rfl, hne⟩ := h3
          refine ⟨r.takeWhile Char.isDigit, b2, ?_, ?_, ?_, ?_⟩
          · rw [← hd, List.takeWhile_append_dropWhile]
          · intro hnil
            exact hne (by rw [hnil]; rfl)
          · intro c hc; exact mem_takeWhile hc
          · simpa using h.symm
        · rw [if_neg h3] at h; simp at h
    · rw [if_neg h12] at h; simp at h

/-- The code structure extends along a suffix to the enclosing text. -/
theorem hasBCode_extend {t l : Str} (hs : t <:+ l) (h : HasBCode t) :
    HasBCode l := by
  obtain ⟨s, rfl⟩ := hs
  obtain ⟨A, ds, B, rfl, h2, h3⟩ := h
  exact ⟨s ++ A, ds, B, by simp, h2, h3⟩

/-- An anchored match starting inside `t` and running into text that opens
with a parenthesis must close inside `t`: the opening parenthesis of the
appended part can neither be a digit nor the closing parenthesis. -/
theorem tryBranch_append_code {t w v : Str} (ht : t ≠ [])
    (h : tryBranch (t ++ '(' :: w) = some v) : HasBCode t := by
  match t with
  | [] => exact absurd rfl ht
  | [c1] =>
    simp only [List.cons_append, List.nil_append, tryBranch] at h
    by_cases h12 : c1 = '(' ∧ ('(' : Char) = 'B'
    · exact absurd h12.2 (by decide)
    · rw [if_neg h12] at h; simp at h
  | c1 :: c2 :: r0 =>
    simp only [List.cons_append, tryBranch] at h
    by_cases h12 : c1 = '(' ∧ c2 = 'B'
    · rw [if_pos h12] at h
      obtain ⟨rfl, rfl⟩ := h12
      cases hd0 : r0.dropWhile Char.isDigit with
      | nil =>
        have hall : ∀ c ∈ r0, Char.isDigit c = true := dropWhile_nil_all hd0
        have hdd : (r0 ++ '(' :: w).dropWhile Char.isDigit = '(' :: w := by
          rw [dropWhile_all_append hall, dropWhile_cons_false (by decide)]
        rw [hdd] at h
        dsimp only at h
        rw [if_neg (fun hc => absurd hc.1 (by decide))] at h
        simp at h
      | cons d rest1 =>
        have hdfalse : Char.isDigit d = false := dropWhile_head_false hd0
        have hsplit : r0 = r0.takeWhile Char.isDigit ++ d :: rest1 := by
          rw [← hd0, List.takeWhile_append_dropWhile]
        have hall : ∀ c ∈ r0.takeWhile Char.isDigit, Char.isDigit c = true :=
          fun c hc => mem_takeWhile hc
        have hdd : (r0 ++ '(' :: w).dropWhile Char.isDigit =
            d :: (rest1 ++ '(' :: w) := by
          conv in r0 ++ _ => rw [hsplit]
          rw [List.append_assoc, List.cons_append]
          exact dropWhile_append_stop hdfalse hall
        have htt : (r0 ++ '(' :: w).takeWhile Char.isDigit =
            r0.takeWhile Char.isDigit := by
          conv in r0 ++ _ => rw [hsplit]
          rw [List.append_assoc, List.cons_append]
          exact takeWhile_append_stop hdfalse hall
        rw [hdd, htt] at h
        dsimp only at h
        by_cases h3 : d = ')' ∧ ¬(r0.takeWhile Char.isDigit).isEmpty = true
        · obtain ⟨rfl, hne⟩ := h3
          refine ⟨[], r0.takeWhile Char.isDigit, rest1, ?_, ?_, hall⟩
          · simp only [List.nil_append]
            rw [← hsplit]
          · intro hnil; exact hne (by rw [hnil]; rfl)
        · rw [if_neg h3] at h; simp at h
    · rw [if_neg h12] at h; simp at h

/-- C10: implicit invariant of the extractor output: whenever
`extract_branch_id` returns a present value, that value consists of the
literal letter B followed by one or more digits (codes whose leading
letter is not B are never returned), and for a missing (NaN) input it
returns the absent value. -/
theorem C10_branch_code_shape :
    (∀ t v : String, extract_branch_id (some t) = some v →
      ∃ ds, v = String.mk ('B' :: ds) ∧ ds ≠ [] ∧ ∀ c ∈ ds, c.isDigit = true)
    ∧ extract_branch_id none = none := by
  constructor
  · intro t v h
    simp only [extract_branch_id, Option.map_eq_some'] at h
    obtain ⟨w, hw, rfl⟩ := h
    obtain ⟨t2, hsuf, htry⟩ := searchAux_some hw
    obtain ⟨ds, b2, heq, hne, hdig, rfl⟩ := tryBranch_inv htry
    exact ⟨ds, rfl, hne, hdig⟩
  · rfl

/-- Witness for C10 at the input "x (B12) y". -/
theorem C10_witness :
    ∃ ds, ("B12" : String) = String.mk ('B' :: ds) ∧ ds ≠ [] ∧
      ∀ c ∈ ds, c.isDigit = true :=
  C10_branch_code_shape.1 "x (B12) y" "B12" (by rfl)

/-- C4 counterexample: the text "(A123)" contains a well-formed
parenthesized code (a letter followed by digits), yet the extractor
returns the absent value instead of that code, because the source regex
only accepts the literal letter B. -/
theorem C4_counterexample : extract_branch_id (some "(A123)") = none := by rfl

/-- C4 amended: for every free-text descriptor containing a parenthesized
code consisting of the letter B followed by digits (and no such code
earlier in the text), `extract_branch_id` returns exactly that code; for
every text containing no such pattern it returns the absent value. -/
theorem C4_amended_extract :
    (∀ pre ds post2 : Str, ds ≠ [] → (∀ c ∈ ds, c.isDigit = true) →
      ¬ HasBCode pre →
      extract_branch_id
        (some (String.mk (pre ++ '(' :: 'B' :: (ds ++ ')' :: post2)))) =
        some (String.mk ('B' :: ds)))
    ∧ ∀ s : String, ¬ HasBCode s.data → extract_branch_id (some s) = none := by
  constructor
  · intro pre ds post2 hne hdig hpre
    simp only [extract_branch_id]
    have hnone : ∀ t, t ≠ [] → t <:+ pre →
        tryBranch (t ++ '(' :: 'B' :: (ds ++ ')' :: post2)) = none := by
      intro t ht hsuf
      cases htry : tryBranch (t ++ '(' :: 'B' :: (ds ++ ')' :: post2)) with
      | none => rfl
      | some v =>
        exact absurd (hasBCode_extend hsuf (tryBranch_append_code ht htry)) hpre
    have hne2 : ¬ds.isEmpty = true := by
      cases ds with
      | nil => exact absurd rfl hne
      | cons c l => simp
    have hfront : tryBranch ('(' :: 'B' :: (ds ++ ')' :: post2)) =
        some ('B' :: ds) := by
      have hdw : (ds ++ ')' :: post2).dropWhile Char.isDigit = ')' :: post2 :=
        dropWhile_append_stop (by decide) hdig
      have htw : (ds ++ ')' :: post2).takeWhile Char.isDigit = ds :=
        takeWhile_append_stop (by decide) hdig
      simp only [tryBranch, hdw, htw]
      simp [hne2]
    rw [searchAux_append hnone, searchAux_of_tryAt hfront]
    rfl
  · intro s h
    cases he : searchAux tryBranch s.data with
    | none => simp [extract_branch_id, he]
    | some w =>
      exfalso
      obtain ⟨t2, hsuf, htry⟩ := searchAux_some he
      obtain ⟨ds, b2, heq, hne, hdig, rfl⟩ := tryBranch_inv htry
      exact h (hasBCode_extend hsuf ⟨[], ds, b2, by simp [heq], hne, hdig⟩)

/-- Witness for C4 amended: the code (B7) with trailing text. -/
theorem C4_witness :
    extract_branch_id
      (some (String.mk ([] ++ '(' :: 'B' :: (['7'] ++ ')' :: " x".data)))) =
      some (String.mk ('B' :: ['7'])) :=
  C4_amended_extract.1 [] ['7'] " x".data (by decide) (by decide)
    (by rintro ⟨A, ds, B, h1, h2, h3⟩; cases A <;> simp at h1)

/-! ### Claims C1, C2, C3 -/

/-- C1: severity classification is a total function: every record
(including one whose reason yields no risk score) gets exactly one of
HIGH, MEDIUM, LOW; a risk score of 50 gives HIGH, 49 gives MEDIUM, 10
gives LOW, and an absent score defaults to LOW. -/
theorem C1_severity_total :
    (∀ rs : Option Nat, severityOfRisk rs = "HIGH" ∨
      severityOfRisk rs = "MEDIUM" ∨ severityOfRisk rs = "LOW") ∧
    severityOfRisk (some 50) = "HIGH" ∧ severityOfRisk (some 49) = "MEDIUM" ∧
    severityOfRisk (some 10) = "LOW" ∧ severityOfRisk none = "LOW" := by
  refine ⟨?_, rfl, rfl, rfl, rfl⟩
  intro rs
  cases rs with
  | none => right; right; rfl
  | some r =>
    simp only [severityOfRisk]
    split_ifs <;> simp

/-- With the literal leading fragment "RiskScore: 10 ", the leftmost match
of the risk-score pattern captures 10 no matter what text follows. -/
theorem searchRiskScore_front (k : Str) :
    searchRiskScore ("RiskScore: 10 ".data ++ k) = some ['1', '0'] := by
  apply searchAux_of_tryAt
  show tryOf "RiskScore:".data (postClass Char.isDigit)
    ("RiskScore:".data ++ (' ' :: '1' :: '0' :: ' ' :: k)) = some ['1', '0']
  simp only [tryOf, dropStart_self]
  simp only [postClass]
  rw [dropWhile_cons_true (by decide), dropWhile_cons_false (by decide)]
  rw [takeWhile_cons_true (by decide), takeWhile_cons_true (by decide),
    takeWhile_cons_false (by decide)]
  simp

/-- Whatever else the reason contains, once the leading fragment pins the
risk score to 10 the derived severity is LOW (or the parse aborts), never
HIGH: the code consults only the risk score. -/
theorem severityOfReason_risk10 (k : Str) :
    severityOfReason (String.mk ("RiskScore: 10 ".data ++ k)) ≠ some "HIGH" := by
  have hrs := searchRiskScore_front k
  rw [show severityOfReason (String.mk ("RiskScore: 10 ".data ++ k)) =
      (match parse_core ("RiskScore: 10 ".data ++ k) with
       | .error _ => none
       | .ok m => some (severityOfRisk (riskNatOf m))) from rfl]
  simp only [parse_core, hrs]
  cases hA : searchAmount ("RiskScore: 10 ".data ++ k) with
  | none =>
    dsimp only
    exact (by decide : some (severityOfRisk (some 10)) ≠ some "HIGH")
  | some cap =>
    dsimp only
    cases hF : floatOfChars cap with
    | none => dsimp only; simp
    | some d =>
      dsimp only
      exact (by decide : some (severityOfRisk (some 10)) ≠ some "HIGH")

/-- C2 counterexample: the spec-side precedence (some nonempty set of
terminal-decision keywords whose presence forces HIGH regardless of risk
score) is false of the code: whatever keyword set is chosen, a reason
carrying that keyword after "RiskScore: 10 " still classifies LOW (or
aborts), never HIGH, because the code consults only the risk score. -/
theorem C2_counterexample : ¬ specC2Holds := by
  rintro ⟨kws, hne, hall⟩
  cases kws with
  | nil => exact absurd rfl hne
  | cons k0 krest =>
    have hr := hall (String.mk ("RiskScore: 10 ".data ++ k0.data))
      ⟨k0, by simp, ⟨"RiskScore: 10 ".data, [], by simp⟩⟩
    exact severityOfReason_risk10 k0.data hr

/-- C2 amended: the precedence has no keyword step.  Severity is
determined by the parsed risk score alone: the severity the dashboard
shows for a reason is exactly `severityOfRisk` of its parsed risk score,
where a score at or above 50 gives HIGH, at or above 30 gives MEDIUM, and
anything else (including an absent score) gives LOW. -/
theorem C2_amended_severity (r : String) (m : List (String × Value))
    (h : parse_reason_fraud (some r) = .ok m) :
    severityOfReason r = some (severityOfRisk (riskNatOf m)) ∧
    (∀ n : Nat, severityOfRisk (some n) =
      if 50 ≤ n then "HIGH" else if 30 ≤ n then "MEDIUM" else "LOW") ∧
    severityOfRisk none = "LOW" := by
  refine ⟨?_, ?_, rfl⟩
  · rw [severityOfReason, h]
  · intro n
    simp only [severityOfRisk]
    split_ifs <;> first | rfl | omega

/-- Witness for C2 amended at the reason "RiskScore: 42". -/
theorem C2_witness :
    severityOfReason "RiskScore: 42" =
      some (severityOfRisk (riskNatOf [("risk_score", Value.vInt 42)])) ∧
    (∀ n : Nat, severityOfRisk (some n) =
      if 50 ≤ n then "HIGH" else if 30 ≤ n then "MEDIUM" else "LOW") ∧
    severityOfRisk none = "LOW" :=
  C2_amended_severity "RiskScore: 42" [("risk_score", Value.vInt 42)] (by rfl)

/-- C3 counterexample: the parser is not total: on the reason
"Amount: .." the amount pattern matches with capture "..", the float
conversion raises ValueError, and the parse reaches the error path. -/
theorem C3_counterexample : parse_reason_fraud (some "Amount: ..") = .error () := by
  rfl

/-- C3 amended: the parser returns a mapping (attributes whose pattern did
not match simply absent) for every input except one whose matched amount
capture is not a valid decimal numeral; only the float conversion of such
a capture reaches an error path. -/
theorem C3_amended_parse (reason : Option String) (h : amountGood reason = true) :
    ∃ m, parse_reason_fraud reason = .ok m := by
  cases reason with
  | none => exact ⟨[], rfl⟩
  | some s =>
    simp only [amountGood] at h
    show ∃ m, parse_core s.data = .ok m
    simp only [parse_core]
    cases hA : searchAmount s.data with
    | none => exact ⟨_, rfl⟩
    | some cap =>
      rw [hA] at h
      dsimp only at h
      dsimp only
      cases hF : floatOfChars cap with
      | none => rw [hF] at h; simp at h
      | some d =>
        dsimp only
        exact ⟨_, rfl⟩

/-- Witness for C3 amended at a reason with a valid amount. -/
theorem C3_witness :
    ∃ m, parse_reason_fraud (some "Amount: 9.5 RiskScore: 60") = .ok m :=
  C3_amended_parse (some "Amount: 9.5 RiskScore: 60") (by rfl)

/-! ### Claims C5, C6, C8, C9 -/

theorem filter_branch_unique {tbl : List BranchRow}
    (hnd : (tbl.map BranchRow.branch_id).Nodup) (b : String) :
    (tbl.filter (fun br => br.branch_id == b)).length ≤ 1 := by
  induction tbl with
  | nil => simp
  | cons br tbl ih =>
    simp only [List.map_cons, List.nodup_cons] at hnd
    by_cases hb : br.branch_id == b
    · have hbeq : br.branch_id = b := by simpa using hb
      have hnil : tbl.filter (fun x => x.branch_id == b) = [] := by
        rw [List.filter_eq_nil_iff]
        intro x hx hxb
        apply hnd.1
        have hxbe : x.branch_id = b := by simpa using hxb
        rw [hbeq, ← hxbe]
        exact List.mem_map.mpr ⟨x, hx, rfl⟩
      simp [List.filter_cons, hb, hnil]
    · simpa [List.filter_cons, hb] using ih hnd.2

theorem rowMerge_length {tbl : List BranchRow}
    (hnd : (tbl.map BranchRow.branch_id).Nodup) (k : Option String) :
    (rowMerge tbl k).length = 1 := by
  cases k with
  | none => rfl
  | some b =>
    simp only [rowMerge]
    cases hf : tbl.filter (fun br => br.branch_id == b) with
    | nil => rfl
    | cons x xs =>
      have hle := filter_branch_unique hnd b
      rw [hf] at hle
      simp only [List.length_cons] at hle
      have hxs : xs = [] := List.length_eq_zero.mp (by omega)
      subst hxs
      rfl

/-- C5: the enrichment join is left-outer: on any fraud-case rows and any
branch table keyed by branch code (no duplicate codes), the joined table
has exactly as many rows as the left input, and rows without a matching
branch code (including rows with a missing code) carry absent enrichment
fields rather than being dropped. -/
theorem C5_left_join {α : Type} (key : α → Option String) (rows : List α)
    (tbl : List BranchRow) (hnd : (tbl.map BranchRow.branch_id).Nodup) :
    (leftMergeBranch key rows tbl).length = rows.length ∧
    ∀ p ∈ leftMergeBranch key rows tbl,
      (∀ br ∈ tbl, some br.branch_id ≠ key p.1) → p.2 = emptyEnrich := by
  constructor
  · induction rows with
    | nil => rfl
    | cons r rows ih =>
      simp only [leftMergeBranch, List.flatMap_cons, List.length_append,
        List.length_map, List.length_cons]
      simp only [leftMergeBranch] at ih
      rw [rowMerge_length hnd (key r)]
      omega
  · intro p hp hnomatch
    simp only [leftMergeBranch, List.mem_flatMap] at hp
    obtain ⟨r, hr, hpe⟩ := hp
    simp only [List.mem_map] at hpe
    obtain ⟨e, he, rfl⟩ := hpe
    cases hk : key r with
    | none =>
      simp only [rowMerge, hk] at he
      simpa using he
    | some b =>
      simp only [rowMerge, hk] at he
      cases hf : tbl.filter (fun br => br.branch_id == b) with
      | nil =>
        rw [hf] at he
        simpa using he
      | cons x xs =>
        exfalso
        have hxmem : x ∈ tbl.filter (fun br => br.branch_id == b) := by
          rw [hf]
          exact List.mem_cons_self x xs
        have hx := List.mem_filter.mp hxmem
        have hxb : x.branch_id = b := by simpa using hx.2
        exact hnomatch x hx.1 (by rw [hk, hxb])

/-- Witness for C5: one matching row and one row with no branch code. -/
theorem C5_witness :
    (leftMergeBranch (fun n : Nat => if n = 1 then some "B1" else none)
      [1, 2] [⟨"B1", "Main", "Bangkok", 13, 100⟩]).length =
      ([1, 2] : List Nat).length ∧
    ∀ p ∈ leftMergeBranch (fun n : Nat => if n = 1 then some "B1" else none)
      [1, 2] [⟨"B1", "Main", "Bangkok", 13, 100⟩],
      (∀ br ∈ [(⟨"B1", "Main", "Bangkok", 13, 100⟩ : BranchRow)],
        some br.branch_id ≠
          (fun n : Nat => if n = 1 then some "B1" else none) p.1) →
      p.2 = emptyEnrich :=
  C5_left_join _ _ _ (by decide)

theorem entryOf_fst (name : String) (g : Str → Value) (o : Option Str) :
    (entryOf name g o).map Prod.fst = if o.isSome then [name] else [] := by
  cases o <;> simp [entryOf]

/-- C6: for every reason string on which the parser returns a mapping, the
keys of that mapping are exactly the attribute names whose regex matched
somewhere in the string; no key appears without a match. -/
theorem C6_keys_exact (reason : Option String) (m : List (String × Value))
    (h : parse_reason_fraud reason = .ok m) :
    m.map Prod.fst = matchedAttrs reason := by
  cases reason with
  | none =>
    simp only [parse_reason_fraud, Except.ok.injEq] at h
    subst h
    rfl
  | some s =>
    have h2 : parse_core s.data = .ok m := h
    simp only [parse_core] at h2
    simp only [matchedAttrs]
    cases hA : searchAmount s.data with
    | none =>
      rw [hA] at h2
      dsimp only at h2
      simp only [Except.ok.injEq] at h2
      subst h2
      simp only [List.map_append, entryOf_fst, hA]
      simp
    | some cap =>
      rw [hA] at h2
      dsimp only at h2
      cases hF : floatOfChars cap with
      | none =>
        rw [hF] at h2
        dsimp only at h2
        exact absurd h2 (by simp)
      | some d =>
        rw [hF] at h2
        dsimp only at h2
        simp only [Except.ok.injEq] at h2
        subst h2
        simp only [List.map_append, entryOf_fst, hA]
        simp

/-- Witness for C6 at a reason matching four of the seven patterns. -/
theorem C6_witness :
    ([("risk_score", Value.vInt 45), ("server", Value.vStr "alpha"),
      ("tx_id", Value.vStr "TX12"), ("amount", Value.vNum ⟨95, 1⟩)]
        : List (String × Value)).map Prod.fst =
      matchedAttrs (some "RiskScore: 45 | Server: alpha | TX: TX12 | Amount: 9.5") :=
  C6_keys_exact _ _ (by rfl)

/-- C8: a fetch returning zero records halts the pass with a neutral
warning: `load_fraud_data` returns the untouched empty frame before any
transform step (branch extraction, parsing, severity, enrichment), and
the top level stops with a warning before any rendering; no error is
raised (the result is `ok`, not `error`, whatever the branch table and
filter). -/
theorem C8_empty_fetch (branchTbl : List BranchRow) (severityFilter : List String) :
    load_fraud_data_model [] branchTbl severityFilter = .ok .empty ∧
    dashboard_pass [] branchTbl severityFilter = .haltedWarning :=
  ⟨rfl, rfl⟩

/-- C9: `parse_reason_fraud` is deterministic: two runs on equal reason
inputs yield identical output (the embedded parser is a pure function of
its argument, as the source consults no other state). -/
theorem C9_deterministic (r s : Option String) (h : r = s) :
    parse_reason_fraud r = parse_reason_fraud s := by rw [h]

/-- Witness for C9 at a concrete reason string. -/
theorem C9_witness :
    parse_reason_fraud (some "RiskScore: 42 Wait: 5m") =
      parse_reason_fraud (some "RiskScore: 42 Wait: 5m") :=
  C9_deterministic _ _ rfl

example : searchRiskScore "RiskScore: 45 x".data = some ['4', '5'] := by rfl
example : searchRiskScore "RiskScore: x RiskScore: 7".data = some ['7'] := by rfl
example : searchEbitda "EBITDA: 45% x".data = some ['4', '5'] := by rfl
example : searchEbitda "EBITDA: 45 x".data = none := by rfl
example : searchTx "a TX: TX77 b".data = some "TX77".data := by rfl
example : searchWait "Wait: 12m".data = some ['1', '2'] := by rfl
example : searchAmount "Amount: ..".data = some ['.', '.'] := by rfl
example : floatOfChars ['.', '.'] = none := by rfl
example : floatOfChars "1.50".data = some ⟨15, 1⟩ := by rfl
example : floatOfChars "1.5".data = some ⟨15, 1⟩ := by rfl
example : floatOfChars ['.'] = none := by rfl
example : floatOfChars "5.".data = some ⟨5, 0⟩ := by rfl
example : extract_branch_id (some "x (B12) y") = some "B12" := by rfl
example : extract_branch_id (some "(A123)") = none := by rfl
example : extract_branch_id (some "((B12)") = some "B12" := by rfl
example : parse_reason_fraud (some "Amount: ..") = .error () := by rfl
example :
    parse_reason_fraud (some "RiskScore: 45 Server: alpha Amount: 9.5") =
      .ok [("risk_score", Value.vInt 45), ("server", Value.vStr "alpha"),
           ("amount", Value.vNum ⟨95, 1⟩)] := by rfl
example : severityOfReason "RiskScore: 50" = some "HIGH" := by rfl
example : severityOfReason "RiskScore: 49" = some "MEDIUM" := by rfl
example : severityOfReason "RiskScore: 10" = some "LOW" := by rfl

end Fraud
